import Mathlib

/-!
Verification of the bookmark import and unification engine of the
Bibliothermes repository (src/main.go) against its specification.

The Go source is shallowly embedded: the data model (`Bookmark`, `Config`,
`AppState`), the merge policy (`addBookmark`), the Chromium bookmark tree
parser (`ChromeNode`, `parseChromeBookmarks`, `importFromChrome` over an
explicit JSON value model), the Firefox profile directory walk
(`firefoxWalk`), the next-identifier recomputation on load (`loadNextID`),
and the state-relevant parts of the interactive command handler
(`openCmd`, `listCmd`).  Go machine integers are modelled as `Int`
(no arithmetic here comes near 64-bit overflow); fallible operations
return `Except`/`Option`.
-/

namespace Bibliothermes

/-- Canonical bookmark entity, src/main.go lines 37-42 (struct `Bookmark`
with fields ID, Name, URL, Favorite). Go `int` is modelled as `Int`. -/
structure Bookmark where
  id : Int
  name : String
  url : String
  favorite : Bool
deriving DecidableEq, Repr

/-- Configuration, src/main.go lines 43-45 (struct `Config`). -/
structure Config where
  defaultBrowserCmd : String
deriving DecidableEq, Repr

/-- Application state, src/main.go lines 46-50 (struct `AppState`:
the bookmark slice, config, and the unexported `nextID` counter). -/
structure AppState where
  bookmarks : List Bookmark
  config : Config
  nextID : Int
deriving DecidableEq, Repr

/-- The merge (unification) policy, src/main.go lines 94-102
(`func (s *AppState) addBookmark(name, url string)`): if any existing
bookmark has the exact same URL the call returns without change;
otherwise a bookmark with ID `s.nextID`, the given name and URL, and the
zero value `false` for Favorite is appended and `nextID` is incremented. -/
def addBookmark (s : AppState) (name url : String) : AppState :=
  if s.bookmarks.any (fun b => b.url = url) then s
  else AppState.mk (s.bookmarks ++ [Bookmark.mk s.nextID name url false]) s.config (s.nextID + 1)

/-- Folding a whole sequence of parsed (name, url) pairs into the state,
one `addBookmark` call per pair, in order.  This is the shape of every
merge loop of the importers in src/main.go (lines 114-121, 133-135,
151-156). -/
def mergeAll (s : AppState) (pairs : List (String × String)) : AppState :=
  pairs.foldl (fun a p => addBookmark a p.1 p.2) s

/-- The multiset of URLs currently stored in the collection. -/
def urls (s : AppState) : List String := s.bookmarks.map (fun b => b.url)

/- Basic facts about the merge policy. -/

theorem addBookmark_urls_mono {s : AppState} {u : String} (h : u ∈ urls s)
    (name url : String) : u ∈ urls (addBookmark s name url) := by
  unfold addBookmark
  split
  · exact h
  · simp only [urls, List.map_append, List.mem_append] at h ⊢
    exact Or.inl h

theorem mem_urls_addBookmark (s : AppState) (name url : String) :
    url ∈ urls (addBookmark s name url) := by
  unfold addBookmark
  split
  · rename_i h
    simp only [List.any_eq_true, decide_eq_true_eq] at h
    obtain ⟨b, hb, hu⟩ := h
    simp only [urls, List.mem_map]
    exact ⟨b, hb, hu⟩
  · simp [urls]

theorem addBookmark_of_mem_urls {s : AppState} {url : String} (h : url ∈ urls s)
    (name : String) : addBookmark s name url = s := by
  unfold addBookmark
  rw [if_pos]
  simp only [urls, List.mem_map] at h
  obtain ⟨b, hb, hu⟩ := h
  simp only [List.any_eq_true, decide_eq_true_eq]
  exact ⟨b, hb, hu⟩

theorem mergeAll_urls_mono {s : AppState} {u : String} (h : u ∈ urls s) :
    ∀ pairs : List (String × String), u ∈ urls (mergeAll s pairs) := by
  intro pairs
  induction pairs generalizing s with
  | nil => exact h
  | cons p rest ih => exact ih (addBookmark_urls_mono h p.1 p.2)

theorem mergeAll_mem_urls (pairs : List (String × String)) (s : AppState) :
    ∀ p ∈ pairs, p.2 ∈ urls (mergeAll s pairs) := by
  induction pairs generalizing s with
  | nil => intro p hp; cases hp
  | cons q rest ih =>
    intro p hp
    rcases List.mem_cons.mp hp with hq | hrest
    · subst hq
      exact mergeAll_urls_mono (mem_urls_addBookmark s p.1 p.2) rest
    · exact ih (addBookmark s q.1 q.2) p hrest

theorem mergeAll_noop (pairs : List (String × String)) (s : AppState)
    (h : ∀ p ∈ pairs, p.2 ∈ urls s) : mergeAll s pairs = s := by
  induction pairs with
  | nil => rfl
  | cons q rest ih =>
    have hq : addBookmark s q.1 q.2 = s :=
      addBookmark_of_mem_urls (h q (List.mem_cons_self q rest)) q.1
    show mergeAll (addBookmark s q.1 q.2) rest = s
    rw [hq]
    exact ih (fun p hp => h p (List.mem_cons_of_mem q hp))

theorem mergeAll_append (s : AppState) (xs ys : List (String × String)) :
    mergeAll s (xs ++ ys) = mergeAll (mergeAll s xs) ys := by
  simp [mergeAll, List.foldl_append]

/-- `addBookmark` either leaves the collection unchanged or appends one
entry at the end; the original list is always a prefix of the result. -/
theorem addBookmark_append_only (s : AppState) (name url : String) :
    ∃ t, (addBookmark s name url).bookmarks = s.bookmarks ++ t := by
  unfold addBookmark
  split
  · exact ⟨[], by simp⟩
  · exact ⟨[Bookmark.mk s.nextID name url false], rfl⟩

theorem mergeAll_append_only (pairs : List (String × String)) (s : AppState) :
    ∃ t, (mergeAll s pairs).bookmarks = s.bookmarks ++ t := by
  induction pairs generalizing s with
  | nil => exact ⟨[], by simp [mergeAll]⟩
  | cons q rest ih =>
    obtain ⟨t1, ht1⟩ := addBookmark_append_only s q.1 q.2
    obtain ⟨t2, ht2⟩ := ih (addBookmark s q.1 q.2)
    exact ⟨t1 ++ t2, by
      show (mergeAll (addBookmark s q.1 q.2) rest).bookmarks = _
      rw [ht2, ht1, List.append_assoc]⟩

/-- One merge step preserves identifier uniqueness and the bound
`every stored id < nextID`. -/
theorem addBookmark_invariant (s : AppState) (name url : String)
    (h1 : (s.bookmarks.map (fun b => b.id)).Nodup)
    (h2 : ∀ b ∈ s.bookmarks, b.id < s.nextID) :
    ((addBookmark s name url).bookmarks.map (fun b => b.id)).Nodup ∧
      ∀ b ∈ (addBookmark s name url).bookmarks, b.id < (addBookmark s name url).nextID := by
  unfold addBookmark
  split
  · exact ⟨h1, h2⟩
  · constructor
    · simp only [List.map_append, List.map_cons, List.map_nil, List.nodup_append]
      refine ⟨h1, List.nodup_singleton _, ?_⟩
      intro x hx
      simp only [List.mem_map] at hx
      obtain ⟨b, hb, hid⟩ := hx
      simp only [List.mem_singleton]
      intro hcontra
      have := h2 b hb
      omega
    · intro b hb
      simp only [List.mem_append, List.mem_singleton] at hb
      rcases hb with hb | hb
      · have := h2 b hb
        simp only
        omega
      · subst hb
        simp only
        omega

/-- claim C3: the merge call is a no-op exactly when some existing
bookmark already carries the given URL (compared by exact, case-sensitive
string equality); otherwise it appends exactly one bookmark with ID
`s.nextID`, the given name and URL, and favorite = false, increments the
next identifier by one, and leaves the configuration (and, by the append
equation, every existing bookmark) unchanged. -/
theorem addBookmark_merge_policy (s : AppState) (name url : String) :
    ((∃ b ∈ s.bookmarks, b.url = url) → addBookmark s name url = s) ∧
    ((∀ b ∈ s.bookmarks, b.url ≠ url) →
      (addBookmark s name url).bookmarks
          = s.bookmarks ++ [Bookmark.mk s.nextID name url false] ∧
      (addBookmark s name url).nextID = s.nextID + 1 ∧
      (addBookmark s name url).config = s.config) := by
  constructor
  · intro h
    obtain ⟨b, hb, hu⟩ := h
    exact addBookmark_of_mem_urls (by simp only [urls, List.mem_map]; exact ⟨b, hb, hu⟩) name
  · intro h
    unfold addBookmark
    rw [if_neg]
    · exact ⟨rfl, rfl, rfl⟩
    · simp only [List.any_eq_true, decide_eq_true_eq, not_exists]
      intro b
      intro hcontra
      exact absurd hcontra.2 (h b hcontra.1)

/-- Witness for C3: on a concrete collection holding the URL
"http://a", merging ("X", "http://a") is a no-op, and merging
("C", "http://c") appends exactly the bookmark with the next ID. -/
theorem addBookmark_merge_policy_witness :
    addBookmark (AppState.mk [Bookmark.mk 1 "A" "http://a" false] (Config.mk "") 2) "X" "http://a"
        = AppState.mk [Bookmark.mk 1 "A" "http://a" false] (Config.mk "") 2 ∧
    (addBookmark (AppState.mk [Bookmark.mk 1 "A" "http://a" false] (Config.mk "") 2) "C" "http://c").bookmarks
        = [Bookmark.mk 1 "A" "http://a" false] ++ [Bookmark.mk 2 "C" "http://c" false] := by
  constructor
  · exact (addBookmark_merge_policy
      (AppState.mk [Bookmark.mk 1 "A" "http://a" false] (Config.mk "") 2) "X" "http://a").1
      ⟨Bookmark.mk 1 "A" "http://a" false, by simp, rfl⟩
  · exact ((addBookmark_merge_policy
      (AppState.mk [Bookmark.mk 1 "A" "http://a" false] (Config.mk "") 2) "C" "http://c").2
      (by decide)).1

/-- claim C4: if the starting collection has pairwise distinct
identifiers and its stored next identifier exceeds every existing one,
then after any finite sequence of merge calls the identifiers are still
pairwise distinct and the stored next identifier still exceeds every
existing one. -/
theorem mergeAll_invariant (pairs : List (String × String)) (s : AppState)
    (h1 : (s.bookmarks.map (fun b => b.id)).Nodup)
    (h2 : ∀ b ∈ s.bookmarks, b.id < s.nextID) :
    ((mergeAll s pairs).bookmarks.map (fun b => b.id)).Nodup ∧
      ∀ b ∈ (mergeAll s pairs).bookmarks, b.id < (mergeAll s pairs).nextID := by
  induction pairs generalizing s with
  | nil => exact ⟨h1, h2⟩
  | cons q rest ih =>
    obtain ⟨g1, g2⟩ := addBookmark_invariant s q.1 q.2 h1 h2
    exact ih (addBookmark s q.1 q.2) g1 g2

/-- Witness for C4: a concrete run of three merges (one of them a
duplicate URL) starting from a concrete valid collection. -/
theorem mergeAll_invariant_witness :
    (((mergeAll (AppState.mk [Bookmark.mk 1 "A" "http://a" false] (Config.mk "") 2)
        [("B", "http://b"), ("A2", "http://a"), ("C", "http://c")]).bookmarks.map
          (fun b => b.id)).Nodup ∧
      ∀ b ∈ (mergeAll (AppState.mk [Bookmark.mk 1 "A" "http://a" false] (Config.mk "") 2)
        [("B", "http://b"), ("A2", "http://a"), ("C", "http://c")]).bookmarks,
        b.id < (mergeAll (AppState.mk [Bookmark.mk 1 "A" "http://a" false] (Config.mk "") 2)
          [("B", "http://b"), ("A2", "http://a"), ("C", "http://c")]).nextID) :=
  mergeAll_invariant [("B", "http://b"), ("A2", "http://a"), ("C", "http://c")]
    (AppState.mk [Bookmark.mk 1 "A" "http://a" false] (Config.mk "") 2)
    (by decide) (by decide)

/-- A Chromium bookmark tree node, src/main.go lines 107-112
(struct `chromeBookmarkNode` with fields Type, Name, URL, Children). -/
inductive ChromeNode : Type where
  | mk (type : String) (name : String) (url : String) (children : List ChromeNode)

mutual
/-- The recursive Chromium tree traversal, src/main.go lines 114-121
(`func parseChromeBookmarks(node chromeBookmarkNode, state *AppState)`):
if the node's type tag is "url" and its URL is non-empty, merge its
(name, url) pair; then visit the children in order, regardless of the
node's type. -/
def parseChromeBookmarks : ChromeNode → AppState → AppState
  | ChromeNode.mk ty nm ur cs, s =>
      parseChromeChildren cs (if ty = "url" ∧ ur ≠ "" then addBookmark s nm ur else s)
/-- The `for _, child := range node.Children` loop of
`parseChromeBookmarks`, threading the mutated state left to right. -/
def parseChromeChildren : List ChromeNode → AppState → AppState
  | [], s => s
  | c :: rest, s => parseChromeChildren rest (parseChromeBookmarks c s)
end

mutual
/-- The flat sequence of (name, url) pairs a node contributes to the
merge policy, in the order `parseChromeBookmarks` submits them: the
node's own pair first (when its type tag is "url" and its URL is
non-empty), then the children's pairs in child order. -/
def flattenNode : ChromeNode → List (String × String)
  | ChromeNode.mk ty nm ur cs =>
      (if ty = "url" ∧ ur ≠ "" then [(nm, ur)] else []) ++ flattenChildren cs
/-- `flattenNode` extended over a sequence of sibling nodes. -/
def flattenChildren : List ChromeNode → List (String × String)
  | [] => []
  | c :: rest => flattenNode c ++ flattenChildren rest
end

mutual
/-- Pre-order listing of all nodes of a tree: the node itself first,
then the pre-order listings of its children, in child order. -/
def preorderNode : ChromeNode → List ChromeNode
  | ChromeNode.mk ty nm ur cs => ChromeNode.mk ty nm ur cs :: preorderChildren cs
/-- `preorderNode` extended over a sequence of sibling nodes. -/
def preorderChildren : List ChromeNode → List ChromeNode
  | [] => []
  | c :: rest => preorderNode c ++ preorderChildren rest
end

/-- The pair a single node contributes: `some (name, url)` exactly when
the node's kind tag is the URL-leaf tag "url" and its URL is non-empty. -/
def leafPair : ChromeNode → Option (String × String)
  | ChromeNode.mk ty nm ur _ => if ty = "url" ∧ ur ≠ "" then some (nm, ur) else none

mutual
theorem parseChromeBookmarks_eq_mergeAll (n : ChromeNode) (s : AppState) :
    parseChromeBookmarks n s = mergeAll s (flattenNode n) := by
  match n with
  | ChromeNode.mk ty nm ur cs =>
    simp only [parseChromeBookmarks, flattenNode]
    rw [parseChromeChildren_eq_mergeAll cs, mergeAll_append]
    by_cases h : ty = "url" ∧ ur ≠ "" <;> simp [h, mergeAll]
theorem parseChromeChildren_eq_mergeAll (l : List ChromeNode) :
    ∀ s : AppState, parseChromeChildren l s = mergeAll s (flattenChildren l) := by
  match l with
  | [] => intro s; simp [parseChromeChildren, flattenChildren, mergeAll]
  | c :: rest =>
    intro s
    simp only [parseChromeChildren, flattenChildren]
    rw [mergeAll_append, parseChromeBookmarks_eq_mergeAll c s,
      parseChromeChildren_eq_mergeAll rest]
end

mutual
theorem flattenNode_eq_preorder (n : ChromeNode) :
    flattenNode n = (preorderNode n).filterMap leafPair := by
  match n with
  | ChromeNode.mk ty nm ur cs =>
    simp only [flattenNode, preorderNode, List.filterMap_cons, leafPair]
    rw [flattenChildren_eq_preorder cs]
    by_cases h : ty = "url" ∧ ur ≠ "" <;> simp [h]
theorem flattenChildren_eq_preorder (l : List ChromeNode) :
    flattenChildren l = (preorderChildren l).filterMap leafPair := by
  match l with
  | [] => simp [flattenChildren, preorderChildren]
  | c :: rest =>
    simp only [flattenChildren, preorderChildren, List.filterMap_append]
    rw [flattenNode_eq_preorder c, flattenChildren_eq_preorder rest]
end

/-- claim C6: flattening a sequence of Chromium tree roots yields exactly
the (name, url) pairs of the URL-leaf nodes with non-empty URL, in the
tree's pre-order traversal order (a node contributes iff `leafPair`
fires on it, so folder nodes themselves contribute nothing and the
number of pairs equals the number of such leaves), and running the
actual recursive parser over the state performs exactly those merges in
exactly that order. -/
theorem flatten_is_preorder_leaves (l : List ChromeNode) :
    flattenChildren l = (preorderChildren l).filterMap leafPair ∧
    (flattenChildren l).length
        = ((preorderChildren l).filter (fun n => (leafPair n).isSome)).length ∧
    ∀ s : AppState, parseChromeChildren l s = mergeAll s (flattenChildren l) := by
  refine ⟨flattenChildren_eq_preorder l, ?_, parseChromeChildren_eq_mergeAll l⟩
  rw [flattenChildren_eq_preorder l]
  induction preorderChildren l with
  | nil => simp
  | cons n rest ih =>
    by_cases h : (leafPair n).isSome
    · obtain ⟨p, hp⟩ := Option.isSome_iff_exists.mp h
      simp [List.filterMap_cons, List.filter_cons, hp, ih]
    · have hn : leafPair n = none := Option.not_isSome_iff_eq_none.mp h
      simp [List.filterMap_cons, List.filter_cons, hn, ih, h]

/-- A parsed JSON document.  `importFromChrome` (src/main.go lines
122-137) reads a file and hands its bytes to `encoding/json`; this type
models the content of a file that is well-formed JSON, the only case
claim C2 quantifies over. -/
inductive Json : Type where
  | jnull
  | jbool (b : Bool)
  | jnum (n : Int)
  | jstr (s : String)
  | jarr (elems : List Json)
  | jobj (fields : List (String × Json))

/-- ASCII-style lower casing, character by character: the model of Go's
`strings.ToLower` and of the case folding `encoding/json` applies when
matching object keys against struct field tags. -/
def strToLower (s : String) : String := String.mk (s.data.map Char.toLower)

/-- Decoding a JSON value into a Go `string` field whose current value is
`cur`: a JSON string replaces it, JSON null leaves it unchanged, any
other value is a type error (mirrors `encoding/json` on `string`). -/
def decodeStringInto (cur : String) : Json → Except Unit String
  | Json.jnull => Except.ok cur
  | Json.jstr s => Except.ok s
  | _ => Except.error ()

mutual
/-- Decoding a JSON value into `chromeBookmarkNode` (src/main.go lines
107-112) with `encoding/json` semantics: an object fills the fields by
case-insensitive key match (unknown keys ignored, later duplicates
overwrite), null leaves the zero value, anything else is a type error. -/
def decodeNode : Json → Except Unit ChromeNode
  | Json.jnull => Except.ok (ChromeNode.mk "" "" "" [])
  | Json.jobj fs => decodeNodeFields fs (ChromeNode.mk "" "" "" [])
  | _ => Except.error ()
/-- Folds the key/value pairs of a JSON object into a node being decoded,
in document order. -/
def decodeNodeFields : List (String × Json) → ChromeNode → Except Unit ChromeNode
  | [], acc => Except.ok acc
  | (k, v) :: rest, ChromeNode.mk t n u cs =>
      if strToLower k = "type" then
        match decodeStringInto t v with
        | Except.error e => Except.error e
        | Except.ok t2 => decodeNodeFields rest (ChromeNode.mk t2 n u cs)
      else if strToLower k = "name" then
        match decodeStringInto n v with
        | Except.error e => Except.error e
        | Except.ok n2 => decodeNodeFields rest (ChromeNode.mk t n2 u cs)
      else if strToLower k = "url" then
        match decodeStringInto u v with
        | Except.error e => Except.error e
        | Except.ok u2 => decodeNodeFields rest (ChromeNode.mk t n u2 cs)
      else if strToLower k = "children" then
        match decodeNodeList v cs with
        | Except.error e => Except.error e
        | Except.ok cs2 => decodeNodeFields rest (ChromeNode.mk t n u cs2)
      else decodeNodeFields rest (ChromeNode.mk t n u cs)
/-- Decoding a JSON value into `[]chromeBookmarkNode` whose current value
is `cur`: an array replaces it element-wise, null leaves it, anything
else is a type error. -/
def decodeNodeList : Json → List ChromeNode → Except Unit (List ChromeNode)
  | Json.jnull, cur => Except.ok cur
  | Json.jarr xs, _ => decodeNodeArr xs
  | _, _ => Except.error ()
/-- Decodes every element of a JSON array as a node. -/
def decodeNodeArr : List Json → Except Unit (List ChromeNode)
  | [] => Except.ok []
  | x :: xs =>
      match decodeNode x with
      | Except.error e => Except.error e
      | Except.ok n =>
          match decodeNodeArr xs with
          | Except.error e => Except.error e
          | Except.ok ns => Except.ok (n :: ns)
end

/-- Insert-or-replace on the association list modelling the Go
`map[string]chromeBookmarkNode` (exact key match, as Go map keys). -/
def upsert : List (String × ChromeNode) → String → ChromeNode → List (String × ChromeNode)
  | [], k, n => [(k, n)]
  | (k0, n0) :: rest, k, n =>
      if k0 = k then (k, n) :: rest else (k0, n0) :: upsert rest k n

/-- Decodes the entries of a JSON object into the roots map, later
duplicate keys overwriting earlier ones. -/
def decodeRootsEntries : List (String × Json) → List (String × ChromeNode) →
    Except Unit (List (String × ChromeNode))
  | [], acc => Except.ok acc
  | (k, v) :: rest, acc =>
      match decodeNode v with
      | Except.error e => Except.error e
      | Except.ok n => decodeRootsEntries rest (upsert acc k n)

/-- Decoding a JSON value into the `map[string]chromeBookmarkNode` field
whose current value is `cur`: an object merges its entries in, null
leaves the map, anything else is a type error. -/
def decodeRootsMap (cur : List (String × ChromeNode)) : Json → Except Unit (List (String × ChromeNode))
  | Json.jnull => Except.ok cur
  | Json.jobj fs => decodeRootsEntries fs cur
  | _ => Except.error ()

/-- Folds the key/value pairs of the top-level JSON object into the
anonymous `struct { Roots map[string]chromeBookmarkNode }` of
`importFromChrome` (src/main.go lines 127-129): only a key matching
"roots" case-insensitively is decoded, every other key is ignored. -/
def decodeRootFields : List (String × Json) → List (String × ChromeNode) →
    Except Unit (List (String × ChromeNode))
  | [], acc => Except.ok acc
  | (k, v) :: rest, acc =>
      if strToLower k = "roots" then
        match decodeRootsMap acc v with
        | Except.error e => Except.error e
        | Except.ok m => decodeRootFields rest m
      else decodeRootFields rest acc

/-- Decoding the whole document into the anonymous root struct:
an object fills `Roots` from a "roots" key if one is present (a missing
key leaves the map empty), null succeeds with the empty map, and any
other top-level value is a type error. -/
def decodeRoot : Json → Except Unit (List (String × ChromeNode))
  | Json.jnull => Except.ok []
  | Json.jobj fs => decodeRootFields fs []
  | _ => Except.error ()

/-- The Chromium import, src/main.go lines 122-137
(`func importFromChrome(path string, state *AppState) error`), modelled
from the point where the file's content is available as well-formed
JSON: decode the root struct (a decode failure is the function's
"could not parse JSON" error) and run `parseChromeBookmarks` on every
root node. -/
def importFromChrome (doc : Json) (s : AppState) : Except Unit AppState :=
  match decodeRoot doc with
  | Except.error e => Except.error e
  | Except.ok roots =>
      Except.ok (roots.foldl (fun a kv => parseChromeBookmarks kv.2 a) s)

/-- The `for _, node := range root.Roots` loop is the sibling traversal
of the values of the roots map. -/
theorem importFromChrome_fold_eq (roots : List (String × ChromeNode)) (s : AppState) :
    roots.foldl (fun a kv => parseChromeBookmarks kv.2 a) s
      = parseChromeChildren (roots.map Prod.snd) s := by
  induction roots generalizing s with
  | nil => rfl
  | cons kv rest ih => simp only [List.foldl_cons, List.map_cons, parseChromeChildren, ih]

/-- The property "the document has no top-level `roots` mapping": either
it is not an object at all, or none of its top-level keys matches
"roots" (case-insensitively, as `encoding/json` matches field tags). -/
def noTopLevelRoots : Json → Prop
  | Json.jobj fs => ∀ kv ∈ fs, strToLower kv.1 ≠ "roots"
  | _ => True

theorem decodeRootFields_no_roots (fs : List (String × Json))
    (acc : List (String × ChromeNode)) (h : ∀ kv ∈ fs, strToLower kv.1 ≠ "roots") :
    decodeRootFields fs acc = Except.ok acc := by
  induction fs with
  | nil => rfl
  | cons kv rest ih =>
    have hk : strToLower kv.1 ≠ "roots" := h kv (List.mem_cons_self kv rest)
    obtain ⟨k, v⟩ := kv
    simp only [decodeRootFields, if_neg hk]
    exact ih (fun x hx => h x (List.mem_cons_of_mem _ hx))

/-- Counterexample for claim C2: the document `{}` is well-formed JSON
containing no top-level `roots` mapping, yet `importFromChrome` succeeds
on it (with the collection unchanged) instead of failing with a format
error: `encoding/json` treats a missing `roots` key as the zero map. -/
theorem importFromChrome_empty_object_succeeds :
    importFromChrome (Json.jobj []) (AppState.mk [] (Config.mk "") 1)
        = Except.ok (AppState.mk [] (Config.mk "") 1) ∧
    noTopLevelRoots (Json.jobj []) := by
  constructor
  · rfl
  · intro kv hkv
    cases hkv

/-- claim C2 as amended: for well-formed JSON content with no top-level
`roots` mapping, the Chromium import either fails with the format error
(content is not a JSON object, e.g. an array or a scalar) or succeeds
while merging nothing, so the collection is returned unchanged; absence
of the `roots` key is not reported as an error. -/
theorem importFromChrome_no_roots (doc : Json) (s : AppState)
    (h : noTopLevelRoots doc) :
    importFromChrome doc s = Except.error () ∨ importFromChrome doc s = Except.ok s := by
  cases doc with
  | jnull => exact Or.inr rfl
  | jbool b => exact Or.inl rfl
  | jnum n => exact Or.inl rfl
  | jstr str => exact Or.inl rfl
  | jarr xs => exact Or.inl rfl
  | jobj fs =>
    right
    simp only [importFromChrome, decodeRoot]
    rw [decodeRootFields_no_roots fs [] h]
    rfl

/-- Witness for the amended C2: a concrete well-formed JSON object with
an unrelated key and no `roots` mapping. -/
theorem importFromChrome_no_roots_witness :
    importFromChrome (Json.jobj [("bookmarks", Json.jnum 3)])
        (AppState.mk [] (Config.mk "") 1) = Except.error () ∨
    importFromChrome (Json.jobj [("bookmarks", Json.jnum 3)])
        (AppState.mk [] (Config.mk "") 1)
      = Except.ok (AppState.mk [] (Config.mk "") 1) :=
  importFromChrome_no_roots (Json.jobj [("bookmarks", Json.jnum 3)])
    (AppState.mk [] (Config.mk "") 1)
    (by intro kv hkv
        simp only [List.mem_singleton] at hkv
        subst hkv
        decide)

/-- claim C7: importing the same well-formed Chromium document twice in
succession yields exactly the state produced by importing it once — the
second import succeeds and returns its input state unchanged (same
bookmarks, identifiers, names, URLs, favorite flags, configuration and
next identifier). -/
theorem importFromChrome_idempotent (doc : Json) (s s1 : AppState)
    (h : importFromChrome doc s = Except.ok s1) :
    importFromChrome doc s1 = Except.ok s1 := by
  have hstep : ∀ (roots : List (String × ChromeNode)) (s2 : AppState),
      decodeRoot doc = Except.ok roots →
      importFromChrome doc s2
        = Except.ok (mergeAll s2 (flattenChildren (roots.map Prod.snd))) := by
    intro roots s2 hdec
    unfold importFromChrome
    rw [hdec]
    show Except.ok (roots.foldl (fun a kv => parseChromeBookmarks kv.2 a) s2) = _
    rw [importFromChrome_fold_eq, parseChromeChildren_eq_mergeAll]
  cases hdec : decodeRoot doc with
  | error e =>
    have herr : importFromChrome doc s = Except.error e := by
      unfold importFromChrome
      rw [hdec]
    rw [herr] at h
    cases h
  | ok roots =>
    have h1 := hstep roots s hdec
    rw [h1] at h
    have hs1 : s1 = mergeAll s (flattenChildren (roots.map Prod.snd)) :=
      ((Except.ok.injEq _ _).mp h).symm
    rw [hstep roots s1 hdec]
    have hall : ∀ p ∈ flattenChildren (roots.map Prod.snd), p.2 ∈ urls s1 := by
      intro p hp
      rw [hs1]
      exact mergeAll_mem_urls _ s p hp
    rw [mergeAll_noop _ s1 hall]

/-- Witness for C7: a concrete document with one URL leaf, imported into
the empty collection; the hypothesis of the idempotence theorem is
discharged by evaluation. -/
theorem importFromChrome_idempotent_witness :
    importFromChrome
        (Json.jobj [("roots", Json.jobj [("bookmark_bar",
          Json.jobj [("type", Json.jstr "url"), ("name", Json.jstr "A"),
            ("url", Json.jstr "http://a")])])])
        (AppState.mk [Bookmark.mk 1 "A" "http://a" false] (Config.mk "") 2)
      = Except.ok (AppState.mk [Bookmark.mk 1 "A" "http://a" false] (Config.mk "") 2) :=
  importFromChrome_idempotent
    (Json.jobj [("roots", Json.jobj [("bookmark_bar",
      Json.jobj [("type", Json.jstr "url"), ("name", Json.jstr "A"),
        ("url", Json.jstr "http://a")])])])
    (AppState.mk [] (Config.mk "") 1)
    (AppState.mk [Bookmark.mk 1 "A" "http://a" false] (Config.mk "") 2)
    (by rfl)

/-- claim C8: an import run only appends.  Whatever list of pairs the
Chromium sources contributed and whatever partial list of rows the
Firefox reader managed to merge before failing, the bookmarks present
when the run began are an unchanged prefix of the final collection, and
the Chromium-phase result is an unchanged prefix of the state after the
partial Firefox phase: no existing bookmark is mutated or removed, and
merges that happened before a later failure survive it. -/
theorem import_append_only (chromePairs firefoxPartial : List (String × String))
    (s0 : AppState) :
    (∃ t, (mergeAll s0 chromePairs).bookmarks = s0.bookmarks ++ t) ∧
    (∃ t, (mergeAll (mergeAll s0 chromePairs) firefoxPartial).bookmarks
        = (mergeAll s0 chromePairs).bookmarks ++ t) :=
  ⟨mergeAll_append_only chromePairs s0,
    mergeAll_append_only firefoxPartial (mergeAll s0 chromePairs)⟩

/-- A filesystem subtree as visited by `filepath.WalkDir`: a plain file
or a directory with its entries (in the lexical order `WalkDir` uses). -/
inductive FSEntry : Type where
  | file (name : String)
  | dir (name : String) (entries : List FSEntry)

/-- The Firefox discovery walk of `importBookmarks`, src/main.go lines
199-217: `filepath.WalkDir` over the profile root with a callback that,
on the first file named exactly "places.sqlite", hands its path to
`importFromFirefox` and returns `filepath.SkipDir`.  Returned from a
non-directory file, `filepath.SkipDir` makes `WalkDir` skip only the
remaining entries of that file's containing directory (the dropped
`rest` in the first branch) and then continue the walk at the parent —
which this function models by still descending into and past later
sibling directories.  The result is the list of full paths handed to the
Firefox Store Reader during the run. -/
def firefoxWalk : List FSEntry → String → List String
  | [], _ => []
  | FSEntry.file n :: rest, base =>
      if n = "places.sqlite" then [base ++ "/" ++ n]
      else firefoxWalk rest base
  | FSEntry.dir n es :: rest, base =>
      firefoxWalk es (base ++ "/" ++ n) ++ firefoxWalk rest base

/-- Counterexample for claim C1: a profile root holding two profile
directories, each with its own places.sqlite.  The walk hands BOTH
database files to the Firefox Store Reader in one run — the claim's
"after the first match no further places.sqlite is visited or imported"
is false, because `filepath.SkipDir` returned for a file only skips the
remainder of that file's own directory. -/
theorem firefoxWalk_two_profiles :
    firefoxWalk [FSEntry.dir "p1" [FSEntry.file "places.sqlite"],
        FSEntry.dir "p2" [FSEntry.file "places.sqlite"]] ""
      = ["/p1/places.sqlite", "/p2/places.sqlite"] := by
  simp only [firefoxWalk]
  decide

/-- claim C1 as amended: the stop is per directory, not global.  Within
one directory whose earlier entries contain no file named exactly
places.sqlite (subdirectories are allowed — anything they contain is
still walked), the first places.sqlite file is imported and the
remaining entries of that same directory are skipped; everything the
earlier entries contributed is kept, so sibling directories before the
match (and, as the two-profile counterexample shows, elsewhere in the
tree) still have their own places.sqlite files visited and imported. -/
theorem firefoxWalk_skip_is_per_directory (pre rest : List FSEntry) (base : String)
    (h : ∀ e ∈ pre, e ≠ FSEntry.file "places.sqlite") :
    firefoxWalk (pre ++ FSEntry.file "places.sqlite" :: rest) base
      = firefoxWalk pre base ++ [base ++ "/" ++ "places.sqlite"] := by
  induction pre generalizing base with
  | nil => simp [firefoxWalk]
  | cons e pre2 ih =>
    have hrest : ∀ x ∈ pre2, x ≠ FSEntry.file "places.sqlite" :=
      fun x hx => h x (List.mem_cons_of_mem e hx)
    cases e with
    | file n =>
      have hn : n ≠ "places.sqlite" := by
        intro hcontra
        exact h (FSEntry.file n) (List.mem_cons_self _ _) (by rw [hcontra])
      simp only [List.cons_append, firefoxWalk, if_neg hn]
      exact ih base hrest
    | dir n es =>
      simp only [List.cons_append, firefoxWalk, ih base hrest, List.append_assoc]

/-- Witness for the amended C1: a directory whose first entry is a
profile subdirectory that itself contains a places.sqlite, followed by a
places.sqlite file and a further entry that the skip drops. -/
theorem firefoxWalk_skip_is_per_directory_witness :
    firefoxWalk ([FSEntry.dir "abc.default" [FSEntry.file "places.sqlite"]]
        ++ FSEntry.file "places.sqlite" :: [FSEntry.file "zz-extra.db"]) "/ff"
      = firefoxWalk [FSEntry.dir "abc.default" [FSEntry.file "places.sqlite"]] "/ff"
        ++ ["/ff" ++ "/" ++ "places.sqlite"] :=
  firefoxWalk_skip_is_per_directory
    [FSEntry.dir "abc.default" [FSEntry.file "places.sqlite"]]
    [FSEntry.file "zz-extra.db"] "/ff"
    (by
      intro e he
      simp only [List.mem_singleton] at he
      subst he
      simp)

/-- The next-identifier recomputation of `loadState`, src/main.go lines
62-92: `nextID` starts at 1; after unmarshalling, if the collection is
non-empty, `maxID` is folded up from 0 over the bookmark IDs (taking an
ID only when it is strictly greater) and `nextID` becomes `maxID + 1`. -/
def loadNextID (bs : List Bookmark) : Int :=
  if bs.length > 0 then
    (bs.foldl (fun maxID b => if b.id > maxID then b.id else maxID) 0) + 1
  else 1

/-- The specification's formula for the recomputed next identifier,
written from the spec's words for comparison with `loadNextID`:
max(existing IDs) + 1, or 1 if the collection is empty. -/
def specNextID (bs : List Bookmark) : Int :=
  match (bs.map (fun b => b.id)).max? with
  | none => 1
  | some m => m + 1

/-- Counterexample for claim C5: a persisted collection manually edited
to hold the single identifier -3.  The code recomputes the next
identifier as 1 (the fold starts at 0, so negative identifiers never
win), while the claim's formula max(existing IDs) + 1 demands -2. -/
theorem loadNextID_negative_id :
    loadNextID [Bookmark.mk (-3) "a" "http://a" false] = 1 ∧
    specNextID [Bookmark.mk (-3) "a" "http://a" false] = -2 ∧
    (1 : Int) ≠ -2 := by
  refine ⟨?_, ?_, by decide⟩
  · simp [loadNextID]
  · simp [specNextID, List.max?]

theorem foldl_max_max (l : List Int) : ∀ a b : Int,
    l.foldl max (max a b) = max a (l.foldl max b) := by
  induction l with
  | nil => intro a b; rfl
  | cons x xs ih =>
    intro a b
    simp only [List.foldl_cons, max_assoc]
    exact ih a (max b x)

theorem loadNextID_foldl_eq (l : List Bookmark) : ∀ a : Int,
    l.foldl (fun maxID b => if b.id > maxID then b.id else maxID) a
      = (l.map (fun b => b.id)).foldl max a := by
  induction l with
  | nil => intro a; rfl
  | cons x xs ih =>
    intro a
    simp only [List.foldl_cons, List.map_cons]
    have hx : (if x.id > a then x.id else a) = max a x.id := by
      rcases lt_or_ge a x.id with hlt | hge
      · simp [hlt, max_def, le_of_lt hlt]
      · have : ¬ (x.id > a) := not_lt.mpr hge
        simp [this, max_def]
        omega
    rw [hx, ih]

/-- claim C5 as amended: on load the next identifier is recomputed, but
with the maximum clamped at 0: it equals max(existing IDs) + 1 whenever
the largest identifier is nonnegative, and 1 when the collection is
empty or every identifier is negative. -/
theorem loadNextID_clamped_max (bs : List Bookmark) :
    loadNextID bs
      = match (bs.map (fun b => b.id)).max? with
        | none => 1
        | some m => if 0 ≤ m then m + 1 else 1 := by
  cases bs with
  | nil => rfl
  | cons b rest =>
    simp only [loadNextID, List.length_cons, List.map_cons, List.max?_cons',
      if_pos (Nat.succ_pos rest.length)]
    rw [loadNextID_foldl_eq]
    simp only [List.map_cons, List.foldl_cons]
    have h0 : max (0 : Int) b.id = max 0 b.id := rfl
    have := foldl_max_max (rest.map (fun b => b.id)) 0 b.id
    rw [this]
    rcases le_or_lt 0 ((rest.map (fun b => b.id)).foldl max b.id) with hge | hlt
    · rw [if_pos hge, max_eq_right hge]
    · rw [if_neg (not_le.mpr hlt), max_eq_left (le_of_lt hlt)]
      norm_num

/-- The model of `strconv.Atoi` digit accumulation. -/
def atoiDigits : List Char → Nat → Option Nat
  | [], acc => some acc
  | c :: cs, acc =>
      if c.isDigit then atoiDigits cs (acc * 10 + (c.toNat - 48)) else none

/-- `strconv.Atoi`, src/main.go line 301: an optional sign followed by at
least one decimal digit; anything else is an error (overflow, which Atoi
also rejects, does not arise in this development and is not modelled). -/
def atoi (s : String) : Option Int :=
  match s.data with
  | [] => none
  | '-' :: cs =>
      match cs with
      | [] => none
      | _ => (atoiDigits cs 0).map (fun n => -(n : Int))
  | '+' :: cs =>
      match cs with
      | [] => none
      | _ => (atoiDigits cs 0).map (fun n => (n : Int))
  | cs => (atoiDigits cs 0).map (fun n => (n : Int))

/-- The accumulator loop of `strings.Fields`: split the character stream
at whitespace, emitting only non-empty tokens. -/
def fieldsGo : List Char → List Char → List String
  | [], acc => if acc = [] then [] else [String.mk acc.reverse]
  | c :: cs, acc =>
      if c.isWhitespace then
        (if acc = [] then [] else [String.mk acc.reverse]) ++ fieldsGo cs []
      else fieldsGo cs (c :: acc)

/-- `strings.Fields`, used at src/main.go line 309 to split the
configured browser command into an argument vector; on the empty string
it returns the empty slice. -/
def stringFields (s : String) : List String := fieldsGo s.data []

/-- First-run browser command initialisation of `loadState`,
src/main.go lines 66-77: the `switch runtime.GOOS` has no default case,
so on an unrecognized operating system the command stays the zero value
(the empty string). -/
def initialBrowserCmd (goos : String) : String :=
  if goos = "darwin" then "open"
  else if goos = "linux" then "xdg-open"
  else if goos = "windows" then "cmd /c start"
  else ""

/-- Observable outcome of the `open` command branch of `handleCommand`,
src/main.go lines 296-317.  `indexOutOfRange` models the runtime panic
of evaluating `cmdParts[0]` on an empty slice (line 310); `launch c argv
nm` models `exec.Command(c, argv...)` being started after printing the
bookmark's name. -/
inductive OpenOutcome : Type where
  | usage
  | invalidID
  | indexOutOfRange
  | launch (prog : String) (argv : List String) (bookmarkName : String)
  | notFound
deriving DecidableEq, Repr

/-- The `case "open"` branch of `handleCommand`, src/main.go lines
296-317: usage message without an argument; Atoi failure is "Invalid
ID."; the first bookmark with the given ID is opened by splitting the
configured browser command into fields and indexing the first field —
an out-of-bounds access when the command is empty; no match is "ID not
found.". -/
def openCmd (args : List String) (s : AppState) : OpenOutcome :=
  match args with
  | [] => OpenOutcome.usage
  | a :: _ =>
      match atoi a with
      | none => OpenOutcome.invalidID
      | some id =>
          match s.bookmarks.find? (fun b => decide (b.id = id)) with
          | some b =>
              match stringFields s.config.defaultBrowserCmd with
              | [] => OpenOutcome.indexOutOfRange
              | c :: restCmd => OpenOutcome.launch c (restCmd ++ [b.url]) b.name
          | none => OpenOutcome.notFound

/-- claim C9: with an empty configured browser command (the state left
by first-run initialisation on an unrecognized operating system, or by
loading a persisted state with an empty config), `open <id>` on any
collection that contains a bookmark with that identifier reaches the
out-of-bounds index of the first element of the empty field list — a
crash, not an error message. -/
theorem openCmd_empty_cmd_crashes (s : AppState) (a : String) (id : Int)
    (hcmd : s.config.defaultBrowserCmd = "")
    (hid : atoi a = some id)
    (hmem : ∃ b ∈ s.bookmarks, b.id = id) :
    openCmd [a] s = OpenOutcome.indexOutOfRange := by
  obtain ⟨b, hb, hbid⟩ := hmem
  have hsome : (s.bookmarks.find? (fun x => decide (x.id = id))).isSome := by
    rw [List.find?_isSome]
    exact ⟨b, hb, by simp [hbid]⟩
  obtain ⟨b2, hb2⟩ := Option.isSome_iff_exists.mp hsome
  simp only [openCmd, hid, hb2, hcmd]
  rfl

/-- Witness for C9: the concrete first-run state of an unrecognized
operating system with one imported bookmark; `open 1` crashes. -/
theorem openCmd_empty_cmd_crashes_witness :
    openCmd ["1"] (AppState.mk [Bookmark.mk 1 "A" "http://a" false]
        (Config.mk (initialBrowserCmd "openbsd")) 2)
      = OpenOutcome.indexOutOfRange :=
  openCmd_empty_cmd_crashes
    (AppState.mk [Bookmark.mk 1 "A" "http://a" false]
      (Config.mk (initialBrowserCmd "openbsd")) 2)
    "1" 1 (by rfl) (by rfl)
    ⟨Bookmark.mk 1 "A" "http://a" false, by simp, rfl⟩

/-- The state effect of the `case "list", "ls"` branch of
`handleCommand`, src/main.go lines 254-295: whatever the argument
variant (`fav` and `links` only filter and format the printed output,
lines 256-264), the canonical slice itself is sorted in place by
case-insensitive name (lines 266-268) before printing.  `sort.Slice`
with the `strings.ToLower` comparison is modelled by `mergeSort` with
the corresponding key: some permutation of the slice ordered by the
lowered names. -/
def listCmd (_args : List String) (s : AppState) : AppState :=
  AppState.mk
    (s.bookmarks.mergeSort (fun a b => decide (strToLower a.name ≤ strToLower b.name)))
    s.config s.nextID

/-- claim C10: every variant of the `list` command permanently reorders
the stored collection: the resulting state's bookmark list is a
permutation of the previous one, sorted by case-insensitive name, while
config and next identifier are untouched.  Since `saveState`
(src/main.go lines 55-61) marshals `s.Bookmarks` in slice order, this
sorted order is exactly what a subsequent save persists. -/
theorem listCmd_sorts_in_place (args : List String) (s : AppState) :
    (listCmd args s).bookmarks.Perm s.bookmarks ∧
    List.Pairwise (fun a b : Bookmark => strToLower a.name ≤ strToLower b.name)
      (listCmd args s).bookmarks ∧
    (listCmd args s).config = s.config ∧
    (listCmd args s).nextID = s.nextID := by
  refine ⟨List.mergeSort_perm _ _, ?_, rfl, rfl⟩
  have h := @List.sorted_mergeSort Bookmark
    (fun a b => decide (strToLower a.name ≤ strToLower b.name))
    (fun a b c hab hbc => by
      simp only [decide_eq_true_eq] at hab hbc ⊢
      exact le_trans hab hbc)
    (fun a b => by
      simp only [Bool.or_eq_true, decide_eq_true_eq]
      exact le_total _ _)
    s.bookmarks
  exact h.imp (by simp)

end Bibliothermes
